import Mathlib

/-!
Verification of the parallel junction-tree Gibbs sampler driver
(`src/apps/pgibbs/jt_factor/pgibbs_jt_alchemy.cpp`) and of the core sampler
components it invokes, as described by the specification.  The driver code is
embedded directly; components that live outside the provided sources
(`jt_worker.hpp`, `data_structures.hpp`) are modelled from the specification,
as marked on each definition.
-/

namespace PGibbs

/-- A discrete belief histogram over the states of one variable
(the `unary_factor` stored in each MRF vertex).  Weights are modelled as
rationals. -/
structure UnaryFactor where
  vals : List ℚ
deriving DecidableEq, Inhabited

/-- Modelled from the spec: `unary_factor::normalize` (its definition lives in
`data_structures.hpp`, outside src/).  The belief is a "normalized
histogram/expectation over observed assignments", so normalization rescales
the histogram to total mass one; a histogram of total mass zero is left
unchanged. -/
def UnaryFactor.normalize (b : UnaryFactor) : UnaryFactor :=
  let s := b.vals.sum
  if s = 0 then b else ⟨b.vals.map (fun x => x / s)⟩

/-- Modelled from the spec: `unary_factor::expectation` (outside src/) reads
the histogram and reports the expected state index; it does not mutate the
factor. -/
def UnaryFactor.expectation (b : UnaryFactor) : ℚ :=
  (b.vals.enum.map (fun p => (p.1 : ℚ) * p.2)).sum

/-- Per-vertex mutable state of the shared MRF (`mrf::vertex_data`): current
assignment (the scalar the driver reads as `asg.asg_at(0)`), the variable's
arity (read as `variable.arity`), belief histogram, update counter, the
tree-height tag, and the claim state (which tree, if any, holds the vertex). -/
structure vertex_data where
  asg : Nat
  arity : Nat
  belief : UnaryFactor
  updates : Nat
  height : Nat
  claimState : Option Nat
deriving DecidableEq, Inhabited

/-- A factor of the factorized model: an ordered scope of variable ids and a
log-potential table indexed by the joint assignment of the scope. -/
structure Factor where
  scope : List Nat
  logP : List Nat → ℚ

/-- Modelled from the spec: `unnormalized_loglikelihood` (declared outside
src/) scores the current assignment against all factors, summing each
factor's log-weight at the assignment restricted to its scope.  It only reads
the MRF. -/
def unnormalized_loglikelihood (g : List vertex_data) (factors : List Factor) : ℚ :=
  (factors.map (fun f => f.logP (f.scope.map (fun v => (g.getD v default).asg)))).sum

/-- Everything the post-run reporting pass of `main`
(pgibbs_jt_alchemy.cpp lines 169-243, excluding the results-file append)
emits: the log-likelihood, the rows saved by `mrf::save_beliefs`, the summed
update counters, and the five diagnostic images. -/
structure ReportOutput where
  loglik : ℚ
  savedBeliefs : List UnaryFactor
  total_updates : Nat
  predImage : List ℚ
  updatesImage : List Nat
  unsampledImage : List Bool
  finalSampleImage : List Nat
  heightsImage : List Nat

/-- The reporting/export pass of `main` (pgibbs_jt_alchemy.cpp lines 169-243,
excluding the results-file append, which is modelled with the driver loop):
it computes the log-likelihood, saves beliefs, totals the update counters and
renders the five images.  The prediction image calls
`vdata.belief.normalize()` on each vertex through a non-const reference
before taking the expectation, so the pass returns the resulting graph
alongside the outputs. -/
def reportingPass (g : List vertex_data) (factors : List Factor) :
    List vertex_data × ReportOutput :=
  let loglik := unnormalized_loglikelihood g factors
  let savedBeliefs := g.map (fun v => v.belief)
  let total_updates := (g.map (fun v => v.updates)).sum
  let g2 := g.map (fun v => { v with belief := v.belief.normalize })
  let predRaw := g2.map (fun v => v.belief.expectation)
  let arity0 := (g2.getD 0 default).arity
  let predImage := (predRaw.set 0 0).set 1 ((arity0 : ℚ) - 1)
  (g2,
   { loglik := loglik
     savedBeliefs := savedBeliefs
     total_updates := total_updates
     predImage := predImage
     updatesImage := g2.map (fun v => v.updates)
     unsampledImage := g2.map (fun v => v.updates == 0)
     finalSampleImage := g2.map (fun v => v.asg)
     heightsImage := g2.map (fun v => v.height) })

/-- The belief-only update applied to each vertex by the prediction-image
loop of the reporting pass. -/
def normalizeBelief (v : vertex_data) : vertex_data :=
  { v with belief := v.belief.normalize }

/-- Auxiliary: replacing only the belief of every vertex leaves every other
field of every vertex unchanged (read positionally with a default). -/
theorem getD_map_belief_update (g : List vertex_data) (i : Nat) :
    (((g.map normalizeBelief).getD i default).asg = (g.getD i default).asg) ∧
    (((g.map normalizeBelief).getD i default).updates = (g.getD i default).updates) ∧
    (((g.map normalizeBelief).getD i default).height = (g.getD i default).height) ∧
    (((g.map normalizeBelief).getD i default).claimState = (g.getD i default).claimState) := by
  induction g generalizing i with
  | nil => simp
  | cons a l ih =>
    cases i with
    | zero => simp [normalizeBelief]
    | succ n => simpa using ih n

/-- **C1** fails on the code: running the reporting/export pass on a
one-vertex graph whose belief histogram is `[1, 1]` changes the stored
belief (to `[1/2, 1/2]`), because `vdata.belief.normalize()` at
pgibbs_jt_alchemy.cpp line 217 writes the vertex data through a non-const
reference.  So the reporting phase does modify a field of the vertex data. -/
theorem C1_counterexample :
    (reportingPass [⟨0, 2, ⟨[1, 1]⟩, 0, 0, none⟩] []).1
      ≠ [⟨0, 2, ⟨[1, 1]⟩, 0, 0, none⟩] := by
  intro h
  have h0 := congrArg (fun l => ((l.getD 0 default).belief.vals.getD 0 0 : ℚ)) h
  norm_num [reportingPass, UnaryFactor.normalize] at h0

/-- **C1** (amended): the post-run reporting pass obtains each vertex's
belief, assignment, update counter and height, and the whole-graph
log-likelihood, and the only field of any vertex it modifies is the belief,
which it replaces by its normalization before extracting expectations; the
assignment, update counter, height and claim state of every vertex are left
unchanged. -/
theorem C1_reporting_mutates_only_belief (g : List vertex_data) (fs : List Factor) :
    (reportingPass g fs).1 = g.map normalizeBelief ∧
    (reportingPass g fs).2.loglik = unnormalized_loglikelihood g fs ∧
    ∀ i : Nat,
      ((reportingPass g fs).1.getD i default).asg = (g.getD i default).asg ∧
      ((reportingPass g fs).1.getD i default).updates = (g.getD i default).updates ∧
      ((reportingPass g fs).1.getD i default).height = (g.getD i default).height ∧
      ((reportingPass g fs).1.getD i default).claimState = (g.getD i default).claimState := by
  exact ⟨rfl, rfl, fun i => getD_map_belief_update g i⟩

/-! ### The driver loop of `main` (pgibbs_jt_alchemy.cpp lines 113-246) -/

/-- `EXIT_SUCCESS` from `<cstdlib>`. -/
def EXIT_SUCCESS : Nat := 0

/-- `EXIT_FAILURE` from `<cstdlib>`. -/
def EXIT_FAILURE : Nat := 1

/-- `get_next_experiment_id` (pgibbs_jt_alchemy.cpp lines 34-41): opens the
results file and counts its lines.  A file that does not exist (modelled as
`none`) yields no lines, hence id `0`. -/
def get_next_experiment_id (experiment_file : Option (List String)) : Nat :=
  (experiment_file.getD []).length

/-- The run parameters of `main` fixed before the `runtimes` loop. -/
structure RunConfig where
  ncpus : Nat
  treesize : Nat
  treewidth : Nat
  treeheight : Nat
  factorsize : Nat
  subthreads : Nat
  priorities : Bool

/-- The thirteen tab-separated fields appended to the results file at
pgibbs_jt_alchemy.cpp lines 193-205, in their order of emission. -/
def resultsRow (experiment_id ncpus : Nat) (run_so_far runtime : ℚ)
    (treesize treewidth factorsize treeheight subthreads : Nat)
    (priorities : Bool) (actual_runtime : ℚ) (total_updates : Nat)
    (loglik : ℚ) : String :=
  String.intercalate "\t"
    [toString experiment_id, toString ncpus, toString run_so_far,
     toString runtime, toString treesize, toString treewidth,
     toString factorsize, toString treeheight, toString subthreads,
     cond priorities "1" "0", toString actual_runtime,
     toString total_updates, toString loglik]

/-- The observable record of one iteration of the `runtimes` loop. -/
structure IterTrace where
  experiment_id : Nat
  remaining_time : ℚ
  actual_runtime : ℚ
  appendedRow : String
deriving Inhabited

/-- The `runtimes` loop of `main` (pgibbs_jt_alchemy.cpp lines 131-246).
`ps` abstracts the effect of the k-th `parallel_sample` invocation on the
MRF, given the time budget it is passed; `d` gives the wall-clock duration
the timer measures for that invocation.  Each iteration reads the next
experiment id from the results file, clamps `runtime - run_so_far` at zero,
runs the sampler, adds the measured duration to `run_so_far`, runs the
reporting pass, and appends one row to the results file. -/
def mainLoop (cfg : RunConfig) (factors : List Factor)
    (ps : Nat → ℚ → List vertex_data → List vertex_data) (d : Nat → ℚ) :
    List ℚ → Nat → ℚ → List vertex_data → List String →
      List IterTrace × List vertex_data × List String
  | [], _, _, g, file => ([], g, file)
  | runtime :: rest, k, run_so_far, g, file =>
      let experiment_id := file.length
      let remaining_time := if runtime - run_so_far ≤ 0 then 0 else runtime - run_so_far
      let g1 := ps k remaining_time g
      let actual_runtime := d k
      let run_so_far2 := run_so_far + actual_runtime
      let g2 := (reportingPass g1 factors).1
      let rep := (reportingPass g1 factors).2
      let row := resultsRow experiment_id cfg.ncpus run_so_far2 runtime
        cfg.treesize cfg.treewidth cfg.factorsize cfg.treeheight cfg.subthreads
        cfg.priorities actual_runtime rep.total_updates rep.loglik
      let out := mainLoop cfg factors ps d rest (k + 1) run_so_far2 g2 (file ++ [row])
      (⟨experiment_id, remaining_time, actual_runtime, row⟩ :: out.1, out.2.1, out.2.2)

/-- The externally visible effects of `main`, in order of occurrence. -/
inductive MainEffect where
  | printParseError
  | loadAlchemy (filename : String)
  | constructMRF
  | sampleCall (budget : ℚ)
  | writeBeliefs (experiment_id : Nat)
  | appendResults (row : String)
  | writeImage (base : String) (experiment_id : Nat)
deriving DecidableEq

/-- The effects one iteration of the `runtimes` loop emits, in source order:
the sampler call, the beliefs file, the results-file append, and the five
image dumps. -/
def iterEffects (tr : IterTrace) : List MainEffect :=
  [.sampleCall tr.remaining_time, .writeBeliefs tr.experiment_id,
   .appendResults tr.appendedRow,
   .writeImage "pred" tr.experiment_id, .writeImage "updates" tr.experiment_id,
   .writeImage "unsampled" tr.experiment_id,
   .writeImage "final_sample" tr.experiment_id,
   .writeImage "heights" tr.experiment_id]

/-- `main` (pgibbs_jt_alchemy.cpp lines 47-256): after command-line parsing
(`parseOk` is the result of `clopts.parse`), a failed parse prints an error
and returns `EXIT_FAILURE`; otherwise the model is loaded, the MRF is built,
and the `runtimes` loop runs.  The returned value is the exit code together
with the ordered trace of external effects. -/
def mainModel (parseOk : Bool) (model_filename : String) (cfg : RunConfig)
    (factors : List Factor) (runtimes : List ℚ)
    (ps : Nat → ℚ → List vertex_data → List vertex_data) (d : Nat → ℚ)
    (g0 : List vertex_data) (file0 : List String) : Nat × List MainEffect :=
  if parseOk then
    let out := mainLoop cfg factors ps d runtimes 0 0 g0 file0
    (EXIT_SUCCESS,
      .loadAlchemy model_filename :: .constructMRF :: (out.1.map iterEffects).flatten)
  else
    (EXIT_FAILURE, [.printParseError])

/-- Auxiliary: the clamp `if x ≤ 0 then 0 else x` at line 150 of the driver
is `max 0 x`. -/
theorem clamp_eq_max (x : ℚ) : (if x ≤ 0 then (0:ℚ) else x) = max 0 x := by
  split
  · exact (max_eq_left (by assumption)).symm
  · exact (max_eq_right (le_of_lt (lt_of_not_le (by assumption)))).symm

/-- Auxiliary: peeling the first duration off an accumulated duration sum. -/
theorem range_sum_shift (d : Nat → ℚ) (k i : Nat) :
    ((List.range (i + 1)).map (fun j => d (k + j))).sum
      = d k + ((List.range i).map (fun j => d (k + 1 + j))).sum := by
  rw [List.range_succ_eq_map]
  rw [List.map_cons, List.map_map, List.sum_cons]
  have h1 : (fun j => d (k + j)) ∘ Nat.succ = fun j => d (k + 1 + j) := by
    funext j
    simp only [Function.comp_apply]
    congr 1
    omega
  rw [h1, Nat.add_zero]

/-- Auxiliary: the shape of the `runtimes` loop - one trace and one appended
results row per entry, experiment ids counting up from the current file
length, and each budget equal to the clamped difference between the entry
and the durations accumulated so far. -/
theorem mainLoop_spec (cfg : RunConfig) (factors : List Factor)
    (ps : Nat → ℚ → List vertex_data → List vertex_data) (d : Nat → ℚ)
    (rts : List ℚ) :
    ∀ (k : Nat) (rsf : ℚ) (g : List vertex_data) (file : List String),
      (mainLoop cfg factors ps d rts k rsf g file).1.length = rts.length ∧
      (mainLoop cfg factors ps d rts k rsf g file).2.2
        = file ++ (mainLoop cfg factors ps d rts k rsf g file).1.map
            (fun tr => tr.appendedRow) ∧
      ∀ i, i < rts.length →
        ((mainLoop cfg factors ps d rts k rsf g file).1.getD i default).experiment_id
            = file.length + i ∧
        ((mainLoop cfg factors ps d rts k rsf g file).1.getD i default).remaining_time
            = max 0 (rts.getD i 0
                - (rsf + ((List.range i).map (fun j => d (k + j))).sum)) := by
  induction rts with
  | nil => intro k rsf g file; simp [mainLoop]
  | cons rt rest ih =>
    intro k rsf g file
    simp only [mainLoop]
    refine ⟨?_, ?_, ?_⟩
    · simp [(ih (k+1) _ _ _).1]
    · have h2 := (ih (k + 1) (rsf + d k) (reportingPass (ps k (if rt - rsf ≤ 0 then 0 else rt - rsf) g) factors).1
        (file ++ [resultsRow file.length cfg.ncpus (rsf + d k) rt cfg.treesize cfg.treewidth
          cfg.factorsize cfg.treeheight cfg.subthreads cfg.priorities (d k)
          (reportingPass (ps k (if rt - rsf ≤ 0 then 0 else rt - rsf) g) factors).2.total_updates
          (reportingPass (ps k (if rt - rsf ≤ 0 then 0 else rt - rsf) g) factors).2.loglik])).2.1
      simp only [List.map_cons]
      rw [h2]
      simp
    · intro i hi
      cases i with
      | zero =>
        refine ⟨by simp, ?_⟩
        simp only [List.getD_cons_zero, List.range_zero, List.map_nil,
          List.sum_nil, add_zero]
        exact clamp_eq_max _
      | succ n =>
        have h3 := (ih (k + 1) (rsf + d k) (reportingPass (ps k (if rt - rsf ≤ 0 then 0 else rt - rsf) g) factors).1
          (file ++ [resultsRow file.length cfg.ncpus (rsf + d k) rt cfg.treesize cfg.treewidth
            cfg.factorsize cfg.treeheight cfg.subthreads cfg.priorities (d k)
            (reportingPass (ps k (if rt - rsf ≤ 0 then 0 else rt - rsf) g) factors).2.total_updates
            (reportingPass (ps k (if rt - rsf ≤ 0 then 0 else rt - rsf) g) factors).2.loglik])).2.2
          n (by simpa using hi)
        obtain ⟨h4, h5⟩ := h3
        constructor
        · simp only [List.getD_cons_succ]
          rw [h4]
          simp
          omega
        · simp only [List.getD_cons_succ]
          rw [h5]
          congr 2
          rw [range_sum_shift]
          ring

/-- **C9**: the entries of the `runtimes` option are cumulative deadlines:
the k-th `parallel_sample` invocation receives the time budget
`max 0 (runtimes[k] - run_so_far)` where `run_so_far` is the sum of the
measured durations of all previous invocations; the budget is never
negative, and is zero whenever the accumulated time already meets or
exceeds the entry. -/
theorem C9_cumulative_deadlines (cfg : RunConfig) (factors : List Factor)
    (ps : Nat → ℚ → List vertex_data → List vertex_data) (d : Nat → ℚ)
    (runtimes : List ℚ) (g0 : List vertex_data) (file0 : List String)
    (k : Nat) (hk : k < runtimes.length) :
    ((mainLoop cfg factors ps d runtimes 0 0 g0 file0).1.getD k default).remaining_time
        = max 0 (runtimes.getD k 0 - ((List.range k).map (fun j => d j)).sum) ∧
    0 ≤ ((mainLoop cfg factors ps d runtimes 0 0 g0 file0).1.getD k default).remaining_time ∧
    (runtimes.getD k 0 ≤ ((List.range k).map (fun j => d j)).sum →
      ((mainLoop cfg factors ps d runtimes 0 0 g0 file0).1.getD k default).remaining_time
        = 0) := by
  obtain ⟨-, h2⟩ := (mainLoop_spec cfg factors ps d runtimes 0 0 g0 file0).2.2 k hk
  have h3 : (fun j => d (0 + j)) = fun j => d j := by funext j; simp
  rw [h2, h3, zero_add]
  refine ⟨rfl, le_max_left _ _, fun hle => ?_⟩
  rw [max_eq_left (by linarith)]

/-- Witness for C9 at a concrete input: two runtime entries `[10, 10]` with a
first measured duration of `4` give the second invocation budget `6`. -/
theorem C9_cumulative_deadlines_witness :
    (1 : Nat) < ([10, 10] : List ℚ).length ∧
    ((mainLoop ⟨1, 5, 2, 0, 0, 1, false⟩ [] (fun _ _ g => g) (fun _ => 4)
        [10, 10] 0 0 [] []).1.getD 1 default).remaining_time
      = max 0 (([10, 10] : List ℚ).getD 1 0
          - ((List.range 1).map (fun j => (fun _ => (4:ℚ)) j)).sum) := by
  refine ⟨by decide, ?_⟩
  exact (C9_cumulative_deadlines ⟨1, 5, 2, 0, 0, 1, false⟩ [] (fun _ _ g => g)
    (fun _ => 4) [10, 10] [] [] 1 (by decide)).1

/-- **C10**: `get_next_experiment_id` returns the number of lines in the
results file (`0` for a missing or empty file), each iteration of the
`runtimes` loop appends exactly one row to that file (the final file is the
initial one followed by one appended row per iteration), and the experiment
ids obtained by consecutive iterations are strictly increasing. -/
theorem C10_experiment_ids (cfg : RunConfig) (factors : List Factor)
    (ps : Nat → ℚ → List vertex_data → List vertex_data) (d : Nat → ℚ)
    (runtimes : List ℚ) (g0 : List vertex_data) (file0 : List String)
    (j k : Nat) (hjk : j < k) (hk : k < runtimes.length) :
    get_next_experiment_id none = 0 ∧
    get_next_experiment_id (some []) = 0 ∧
    (∀ ls : List String, get_next_experiment_id (some ls) = ls.length) ∧
    (mainLoop cfg factors ps d runtimes 0 0 g0 file0).2.2
      = file0 ++ (mainLoop cfg factors ps d runtimes 0 0 g0 file0).1.map
          (fun tr => tr.appendedRow) ∧
    (mainLoop cfg factors ps d runtimes 0 0 g0 file0).1.length = runtimes.length ∧
    ((mainLoop cfg factors ps d runtimes 0 0 g0 file0).1.getD k default).experiment_id
      = file0.length + k ∧
    ((mainLoop cfg factors ps d runtimes 0 0 g0 file0).1.getD j default).experiment_id
      < ((mainLoop cfg factors ps d runtimes 0 0 g0 file0).1.getD k default).experiment_id := by
  obtain ⟨h1, h2, h3⟩ := mainLoop_spec cfg factors ps d runtimes 0 0 g0 file0
  have hj := (h3 j (lt_trans hjk hk)).1
  have hkk := (h3 k hk).1
  exact ⟨rfl, rfl, fun ls => rfl, h2, h1, hkk, by rw [hj, hkk]; omega⟩

/-- Witness for C10 at a concrete input: with two runtime entries, the
experiment id of iteration 1 exceeds that of iteration 0. -/
theorem C10_experiment_ids_witness :
    (0 : Nat) < 1 ∧ (1 : Nat) < ([10, 10] : List ℚ).length ∧
    ((mainLoop ⟨1, 5, 2, 0, 0, 1, false⟩ [] (fun _ _ g => g) (fun _ => 4)
        [10, 10] 0 0 [] []).1.getD 0 default).experiment_id
      < ((mainLoop ⟨1, 5, 2, 0, 0, 1, false⟩ [] (fun _ _ g => g) (fun _ => 4)
        [10, 10] 0 0 [] []).1.getD 1 default).experiment_id := by
  refine ⟨by decide, by decide, ?_⟩
  exact (C10_experiment_ids ⟨1, 5, 2, 0, 0, 1, false⟩ [] (fun _ _ g => g)
    (fun _ => 4) [10, 10] [] [] 0 1 (by decide) (by decide)).2.2.2.2.2.2

/-- **C8**: when command-line parsing fails, `main` prints an error message
and returns `EXIT_FAILURE`, and its effect trace contains no model load, no
MRF construction, no sampler invocation, and no write to the results file,
the beliefs file, or any image file. -/
theorem C8_parse_failure_no_side_effects (model_filename : String)
    (cfg : RunConfig) (factors : List Factor) (runtimes : List ℚ)
    (ps : Nat → ℚ → List vertex_data → List vertex_data) (d : Nat → ℚ)
    (g0 : List vertex_data) (file0 : List String) :
    (mainModel false model_filename cfg factors runtimes ps d g0 file0).1 = EXIT_FAILURE ∧
    MainEffect.printParseError ∈ (mainModel false model_filename cfg factors runtimes ps d g0 file0).2 ∧
    (∀ fn, MainEffect.loadAlchemy fn ∉ (mainModel false model_filename cfg factors runtimes ps d g0 file0).2) ∧
    MainEffect.constructMRF ∉ (mainModel false model_filename cfg factors runtimes ps d g0 file0).2 ∧
    (∀ b, MainEffect.sampleCall b ∉ (mainModel false model_filename cfg factors runtimes ps d g0 file0).2) ∧
    (∀ eid, MainEffect.writeBeliefs eid ∉ (mainModel false model_filename cfg factors runtimes ps d g0 file0).2) ∧
    (∀ r, MainEffect.appendResults r ∉ (mainModel false model_filename cfg factors runtimes ps d g0 file0).2) ∧
    (∀ base eid, MainEffect.writeImage base eid ∉ (mainModel false model_filename cfg factors runtimes ps d g0 file0).2) := by
  simp [mainModel, EXIT_FAILURE]

end PGibbs

namespace PGibbs

/-- Modelled from the spec: the phases of one tree lifecycle (§4.5), plus the
discarded outcome of a tree whose seed claim fails. -/
inductive Phase where
  | seeded
  | growing
  | inferring
  | sampling
  | committed
  | discarded
deriving DecidableEq

/-- Modelled from the spec: the record of one tree lifecycle - its phase,
its seed vertex, and the list of vertices it currently claims. -/
structure TreeRec where
  phase : Phase
  seed : Nat
  claimedVs : List Nat
deriving DecidableEq

/-- Modelled from the spec: the shared MRF state and tree table (§3, §5) -
per-vertex claim state (which tree holds the vertex), update counter and
assignment, together with the records of all spawned trees. -/
structure SysState where
  claim : Nat → Option Nat
  updates : Nat → Nat
  asg : Nat → Nat
  trees : Nat → Option TreeRec

/-- Overwrite one tree record. -/
def setTree (s : SysState) (t : Nat) (r : TreeRec) : SysState :=
  { s with trees := fun u => if u = t then some r else s.trees u }

/-- Overwrite one vertex's claim state. -/
def setClaim (s : SysState) (v : Nat) (c : Option Nat) : SysState :=
  { s with claim := fun w => if w = v then c else s.claim w }

/-- Modelled from the spec: the effect of a commit (§4.4) - for exactly the
claimed vertices, write the sampled assignment, add one to the update
counter, and release the claim; mark the tree committed. -/
def commitState (s : SysState) (t : Nat) (r : TreeRec) (a : Nat → Nat) : SysState :=
  { claim := fun v => if v ∈ r.claimedVs then none else s.claim v
    updates := fun v => if v ∈ r.claimedVs then s.updates v + 1 else s.updates v
    asg := fun v => if v ∈ r.claimedVs then a v else s.asg v
    trees := fun u => if u = t then some ⟨.committed, r.seed, r.claimedVs⟩ else s.trees u }

theorem setTree_trees_self (s : SysState) (t : Nat) (r : TreeRec) :
    (setTree s t r).trees t = some r := by simp [setTree]

theorem setTree_trees_other (s : SysState) (t : Nat) (r : TreeRec) (u : Nat)
    (h : u ≠ t) : (setTree s t r).trees u = s.trees u := by simp [setTree, h]

theorem setTree_claim (s : SysState) (t : Nat) (r : TreeRec) :
    (setTree s t r).claim = s.claim := rfl

theorem setTree_updates (s : SysState) (t : Nat) (r : TreeRec) :
    (setTree s t r).updates = s.updates := rfl

theorem setClaim_claim_self (s : SysState) (v : Nat) (c : Option Nat) :
    (setClaim s v c).claim v = c := by simp [setClaim]

theorem setClaim_claim_other (s : SysState) (v : Nat) (c : Option Nat) (w : Nat)
    (h : w ≠ v) : (setClaim s v c).claim w = s.claim w := by simp [setClaim, h]

theorem setClaim_trees (s : SysState) (v : Nat) (c : Option Nat) :
    (setClaim s v c).trees = s.trees := rfl

theorem setClaim_updates (s : SysState) (v : Nat) (c : Option Nat) :
    (setClaim s v c).updates = s.updates := rfl

theorem commitState_trees_self (s : SysState) (t : Nat) (r : TreeRec) (a : Nat → Nat) :
    (commitState s t r a).trees t = some ⟨.committed, r.seed, r.claimedVs⟩ := by
  simp [commitState]

theorem commitState_trees_other (s : SysState) (t : Nat) (r : TreeRec) (a : Nat → Nat)
    (u : Nat) (h : u ≠ t) : (commitState s t r a).trees u = s.trees u := by
  simp [commitState, h]

theorem commitState_claim_mem (s : SysState) (t : Nat) (r : TreeRec) (a : Nat → Nat)
    (v : Nat) (h : v ∈ r.claimedVs) : (commitState s t r a).claim v = none := by
  simp [commitState, h]

theorem commitState_claim_not_mem (s : SysState) (t : Nat) (r : TreeRec) (a : Nat → Nat)
    (v : Nat) (h : v ∉ r.claimedVs) : (commitState s t r a).claim v = s.claim v := by
  simp [commitState, h]

theorem commitState_updates_mem (s : SysState) (t : Nat) (r : TreeRec) (a : Nat → Nat)
    (v : Nat) (h : v ∈ r.claimedVs) :
    (commitState s t r a).updates v = s.updates v + 1 := by
  simp [commitState, h]

theorem commitState_updates_not_mem (s : SysState) (t : Nat) (r : TreeRec) (a : Nat → Nat)
    (v : Nat) (h : v ∉ r.claimedVs) :
    (commitState s t r a).updates v = s.updates v := by
  simp [commitState, h]

/-- The label of one scheduler/worker step. -/
inductive Label where
  | spawn (t v : Nat)
  | claimSeedOk (t : Nat)
  | claimSeedFail (t : Nat)
  | growClaim (t v : Nat)
  | growDone (t : Nat)
  | inferDone (t : Nat)
  | commit (t : Nat) (a : Nat → Nat)

/-- Modelled from the spec: the interleaved small-step semantics of the
coordinator and its workers (§4.2, §4.4, §4.5, §5).  A spawned tree starts
`seeded`; seeding succeeds only when the seed's claim is free (a
non-blocking try-claim), otherwise the tree is discarded before ever
growing; a growing tree may claim any currently unclaimed vertex; growth,
inference and sampling finish in order; a commit writes the sampled
assignment, increments the update counters of exactly the claimed vertices,
and releases their claims. -/
inductive Step : Label → SysState → SysState → Prop where
  | spawn (s : SysState) (t v : Nat) :
      s.trees t = none →
      Step (.spawn t v) s (setTree s t ⟨.seeded, v, []⟩)
  | claimSeedOk (s : SysState) (t : Nat) (r : TreeRec) :
      s.trees t = some r → r.phase = .seeded → s.claim r.seed = none →
      Step (.claimSeedOk t) s
        (setTree (setClaim s r.seed (some t)) t ⟨.growing, r.seed, [r.seed]⟩)
  | claimSeedFail (s : SysState) (t : Nat) (r : TreeRec) :
      s.trees t = some r → r.phase = .seeded → s.claim r.seed ≠ none →
      Step (.claimSeedFail t) s (setTree s t ⟨.discarded, r.seed, r.claimedVs⟩)
  | growClaim (s : SysState) (t v : Nat) (r : TreeRec) :
      s.trees t = some r → r.phase = .growing → s.claim v = none →
      Step (.growClaim t v) s
        (setTree (setClaim s v (some t)) t ⟨.growing, r.seed, v :: r.claimedVs⟩)
  | growDone (s : SysState) (t : Nat) (r : TreeRec) :
      s.trees t = some r → r.phase = .growing →
      Step (.growDone t) s (setTree s t ⟨.inferring, r.seed, r.claimedVs⟩)
  | inferDone (s : SysState) (t : Nat) (r : TreeRec) :
      s.trees t = some r → r.phase = .inferring →
      Step (.inferDone t) s (setTree s t ⟨.sampling, r.seed, r.claimedVs⟩)
  | commit (s : SysState) (t : Nat) (r : TreeRec) (a : Nat → Nat) :
      s.trees t = some r → r.phase = .sampling →
      Step (.commit t a) s (commitState s t r a)

/-- The initial shared state: no claims, zero update counters, no trees. -/
def initState (asg0 : Nat → Nat) : SysState :=
  { claim := fun _ => none, updates := fun _ => 0, asg := asg0, trees := fun _ => none }

/-- States reachable from the initial state by interleaved steps. -/
inductive Reach (asg0 : Nat → Nat) : SysState → Prop where
  | init : Reach asg0 (initState asg0)
  | step {s s' : SysState} (l : Label) : Reach asg0 s → Step l s s' → Reach asg0 s'

/-- A tree is active between its successful seeding and its claim release
at commit. -/
def Phase.isActive : Phase → Bool
  | .growing => true
  | .inferring => true
  | .sampling => true
  | _ => false

/-- The claim-coherence invariant: every vertex claimed by an active tree
carries that tree's claim mark. -/
def ClaimInv (s : SysState) : Prop :=
  ∀ t r, s.trees t = some r → r.phase.isActive = true →
    ∀ v, v ∈ r.claimedVs → s.claim v = some t

theorem claimInv_init (asg0 : Nat → Nat) : ClaimInv (initState asg0) := by
  intro t r hr
  simp [initState] at hr

theorem claimInv_step {l : Label} {s s' : SysState}
    (hstep : Step l s s') (hinv : ClaimInv s) : ClaimInv s' := by
  cases hstep with
  | spawn s t v h =>
    intro t' r' hr' hact w hw
    by_cases he : t' = t
    · subst he
      rw [setTree_trees_self] at hr'
      injection hr' with hr2
      rw [← hr2] at hact
      simp [Phase.isActive] at hact
    · rw [setTree_trees_other s t _ t' he] at hr'
      rw [setTree_claim]
      exact hinv t' r' hr' hact w hw
  | claimSeedOk s t r hr hp hc =>
    intro t' r' hr' hact w hw
    rw [setTree_claim]
    by_cases he : t' = t
    · subst he
      rw [setTree_trees_self] at hr'
      injection hr' with hr2
      rw [← hr2] at hw
      simp only [List.mem_singleton] at hw
      subst hw
      rw [setClaim_claim_self]
    · rw [setTree_trees_other _ t _ t' he, setClaim_trees] at hr'
      have h1 := hinv t' r' hr' hact w hw
      by_cases hwv : w = r.seed
      · rw [hwv, hc] at h1
        cases h1
      · rw [setClaim_claim_other _ _ _ _ hwv]
        exact h1
  | claimSeedFail s t r hr hp hc =>
    intro t' r' hr' hact w hw
    rw [setTree_claim]
    by_cases he : t' = t
    · subst he
      rw [setTree_trees_self] at hr'
      injection hr' with hr2
      rw [← hr2] at hact
      simp [Phase.isActive] at hact
    · rw [setTree_trees_other s t _ t' he] at hr'
      exact hinv t' r' hr' hact w hw
  | growClaim s t v r hr hp hc =>
    intro t' r' hr' hact w hw
    rw [setTree_claim]
    by_cases he : t' = t
    · subst he
      rw [setTree_trees_self] at hr'
      injection hr' with hr2
      rw [← hr2] at hw
      by_cases hwv : w = v
      · rw [hwv, setClaim_claim_self]
      · simp only [List.mem_cons, hwv, false_or] at hw
        rw [setClaim_claim_other _ _ _ _ hwv]
        exact hinv t' r hr (by rw [hp]; rfl) w hw
    · rw [setTree_trees_other _ t _ t' he, setClaim_trees] at hr'
      have h1 := hinv t' r' hr' hact w hw
      by_cases hwv : w = v
      · rw [hwv, hc] at h1
        cases h1
      · rw [setClaim_claim_other _ _ _ _ hwv]
        exact h1
  | growDone s t r hr hp =>
    intro t' r' hr' hact w hw
    rw [setTree_claim]
    by_cases he : t' = t
    · subst he
      rw [setTree_trees_self] at hr'
      injection hr' with hr2
      rw [← hr2] at hw
      exact hinv t' r hr (by rw [hp]; rfl) w hw
    · rw [setTree_trees_other s t _ t' he] at hr'
      exact hinv t' r' hr' hact w hw
  | inferDone s t r hr hp =>
    intro t' r' hr' hact w hw
    rw [setTree_claim]
    by_cases he : t' = t
    · subst he
      rw [setTree_trees_self] at hr'
      injection hr' with hr2
      rw [← hr2] at hw
      exact hinv t' r hr (by rw [hp]; rfl) w hw
    · rw [setTree_trees_other s t _ t' he] at hr'
      exact hinv t' r' hr' hact w hw
  | commit s t r a hr hp =>
    intro t' r' hr' hact w hw
    by_cases he : t' = t
    · subst he
      rw [commitState_trees_self] at hr'
      injection hr' with hr2
      rw [← hr2] at hact
      simp [Phase.isActive] at hact
    · rw [commitState_trees_other s t r a t' he] at hr'
      have h1 := hinv t' r' hr' hact w hw
      by_cases hwm : w ∈ r.claimedVs
      · have h2 := hinv t r hr (by rw [hp]; rfl) w hwm
        rw [h1] at h2
        injection h2 with h3
        exact absurd h3 he
      · rw [commitState_claim_not_mem s t r a w hwm]
        exact h1

theorem claimInv_reach {asg0 : Nat → Nat} {s : SysState}
    (h : Reach asg0 s) : ClaimInv s := by
  induction h with
  | init => exact claimInv_init asg0
  | step l hr hs ih => exact claimInv_step hs ih

end PGibbs

namespace PGibbs

/-- **C2**: in every reachable state, any two distinct concurrently active
trees (between seeding and claim release) have disjoint claimed-vertex
sets. -/
theorem C2_active_trees_disjoint {asg0 : Nat → Nat} {s : SysState}
    (h : Reach asg0 s) (t1 t2 : Nat) (r1 r2 : TreeRec) (hne : t1 ≠ t2)
    (h1 : s.trees t1 = some r1) (h2 : s.trees t2 = some r2)
    (ha1 : r1.phase.isActive = true) (ha2 : r2.phase.isActive = true) :
    ∀ v, v ∈ r1.claimedVs → v ∉ r2.claimedVs := by
  intro v hv1 hv2
  have c1 := claimInv_reach h t1 r1 h1 ha1 v hv1
  have c2 := claimInv_reach h t2 r2 h2 ha2 v hv2
  rw [c1] at c2
  injection c2 with c3
  exact hne c3

/-- Witness for C2: run two trees to the growing phase on seeds 0 and 1;
vertex 0 is claimed by the first and therefore not by the second. -/
theorem C2_active_trees_disjoint_witness :
    (0 : Nat) ∈ (⟨Phase.growing, 0, [0]⟩ : TreeRec).claimedVs ∧
    (0 : Nat) ∉ (⟨Phase.growing, 1, [1]⟩ : TreeRec).claimedVs := by
  have s1 := Step.spawn (initState (fun _ => 0)) 0 0 rfl
  have s2 := Step.claimSeedOk (setTree (initState (fun _ => 0)) 0 ⟨.seeded, 0, []⟩)
    0 ⟨.seeded, 0, []⟩ rfl rfl rfl
  have s3 := Step.spawn (setTree (setClaim (setTree (initState (fun _ => 0)) 0
    ⟨.seeded, 0, []⟩) 0 (some 0)) 0 ⟨.growing, 0, [0]⟩) 1 1 rfl
  have s4 := Step.claimSeedOk (setTree (setTree (setClaim (setTree
    (initState (fun _ => 0)) 0 ⟨.seeded, 0, []⟩) 0 (some 0)) 0
    ⟨.growing, 0, [0]⟩) 1 ⟨.seeded, 1, []⟩) 1 ⟨.seeded, 1, []⟩ rfl rfl rfl
  have hreach := Reach.step _ (Reach.step _ (Reach.step _ (Reach.step _
    Reach.init s1) s2) s3) s4
  refine ⟨by decide, ?_⟩
  exact C2_active_trees_disjoint hreach 0 1 ⟨.growing, 0, [0]⟩ ⟨.growing, 1, [1]⟩
    (by decide) rfl rfl rfl rfl 0 (by decide)

/-- Multi-step closure of `Step`: zero or more interleaved steps. -/
inductive Steps : SysState → SysState → Prop where
  | refl (s : SysState) : Steps s s
  | tail {s s' s'' : SysState} (l : Label) : Steps s s' → Step l s' s'' → Steps s s''

theorem step_updates_mono {l : Label} {s s' : SysState}
    (h : Step l s s') (v : Nat) : s.updates v ≤ s'.updates v := by
  cases h with
  | spawn s t w h0 => rw [setTree_updates]
  | claimSeedOk s t r h0 hp hc => rw [setTree_updates, setClaim_updates]
  | claimSeedFail s t r h0 hp hc => rw [setTree_updates]
  | growClaim s t w r h0 hp hc => rw [setTree_updates, setClaim_updates]
  | growDone s t r h0 hp => rw [setTree_updates]
  | inferDone s t r h0 hp => rw [setTree_updates]
  | commit s t r a h0 hp =>
    by_cases hm : v ∈ r.claimedVs
    · rw [commitState_updates_mem s t r a v hm]
      exact Nat.le_succ _
    · rw [commitState_updates_not_mem s t r a v hm]

theorem step_updates_char {l : Label} {s s' : SysState}
    (h : Step l s s') (v : Nat) (hne : s'.updates v ≠ s.updates v) :
    ∃ t r a, l = .commit t a ∧ s.trees t = some r ∧ v ∈ r.claimedVs ∧
      s'.updates v = s.updates v + 1 := by
  cases h with
  | spawn s t w h0 => exact absurd (congrFun (setTree_updates s t _) v) hne
  | claimSeedOk s t r h0 hp hc => exact absurd (congrFun rfl v) hne
  | claimSeedFail s t r h0 hp hc => exact absurd (congrFun (setTree_updates s t _) v) hne
  | growClaim s t w r h0 hp hc => exact absurd (congrFun rfl v) hne
  | growDone s t r h0 hp => exact absurd (congrFun (setTree_updates s t _) v) hne
  | inferDone s t r h0 hp => exact absurd (congrFun (setTree_updates s t _) v) hne
  | commit s t r a h0 hp =>
    by_cases hm : v ∈ r.claimedVs
    · exact ⟨t, r, a, rfl, h0, hm, commitState_updates_mem s t r a v hm⟩
    · exact absurd (commitState_updates_not_mem s t r a v hm) hne

/-- **C5**: along any run, every vertex's update counter is non-decreasing,
and a single step changes a counter only when it is a commit of a tree that
has claimed that vertex, in which case the counter rises by exactly one. -/
theorem C5_update_counters {s s' : SysState} (h : Steps s s') :
    (∀ v, s.updates v ≤ s'.updates v) ∧
    (∀ (l : Label) (u u' : SysState), Step l u u' → ∀ v,
      u'.updates v ≠ u.updates v →
      ∃ t r a, l = .commit t a ∧ u.trees t = some r ∧ v ∈ r.claimedVs ∧
        u'.updates v = u.updates v + 1) := by
  constructor
  · induction h with
    | refl => exact fun v => le_refl _
    | tail l hs hstep ih => exact fun v => le_trans (ih v) (step_updates_mono hstep v)
  · intro l u u' hs v hne
    exact step_updates_char hs v hne

/-- Witness for C5 at the initial state with the empty run. -/
theorem C5_update_counters_witness :
    (initState (fun _ => 0)).updates 0 ≤ (initState (fun _ => 0)).updates 0 :=
  (C5_update_counters (Steps.refl (initState (fun _ => 0)))).1 0

/-- The forward order on lifecycle phases: the chain
`seeded → growing → inferring → sampling → committed` together with the
`seeded → discarded` exit for a failed seed claim; nothing precedes a phase
in this order except itself, `seeded`, or an earlier phase of the chain. -/
def PhaseLe : Phase → Phase → Prop := fun a b =>
  a = b ∨ a = .seeded ∨
  (a = .growing ∧ (b = .inferring ∨ b = .sampling ∨ b = .committed)) ∨
  (a = .inferring ∧ (b = .sampling ∨ b = .committed)) ∨
  (a = .sampling ∧ b = .committed)

theorem phaseLe_refl (a : Phase) : PhaseLe a a := Or.inl rfl

theorem phaseLe_trans {a b c : Phase} (h1 : PhaseLe a b) (h2 : PhaseLe b c) :
    PhaseLe a c := by
  cases a <;> cases b <;> cases c <;> simp_all [PhaseLe]

theorem step_tree_phase {l : Label} {s s' : SysState}
    (h : Step l s s') (t : Nat) (r : TreeRec) (hr : s.trees t = some r) :
    ∃ r', s'.trees t = some r' ∧ PhaseLe r.phase r'.phase := by
  cases h with
  | spawn s t0 w h0 =>
    by_cases he : t = t0
    · rw [he, h0] at hr; cases hr
    · exact ⟨r, by rw [setTree_trees_other _ _ _ _ he]; exact hr, phaseLe_refl _⟩
  | claimSeedOk s t0 r0 h0 hp hc =>
    by_cases he : t = t0
    · subst he
      rw [h0] at hr
      injection hr with hr2
      subst hr2
      exact ⟨⟨.growing, r0.seed, [r0.seed]⟩, setTree_trees_self _ _ _,
        Or.inr (Or.inl hp)⟩
    · exact ⟨r, by rw [setTree_trees_other _ _ _ _ he, setClaim_trees]; exact hr,
        phaseLe_refl _⟩
  | claimSeedFail s t0 r0 h0 hp hc =>
    by_cases he : t = t0
    · subst he
      rw [h0] at hr
      injection hr with hr2
      subst hr2
      exact ⟨⟨.discarded, r0.seed, r0.claimedVs⟩, setTree_trees_self _ _ _,
        Or.inr (Or.inl hp)⟩
    · exact ⟨r, by rw [setTree_trees_other _ _ _ _ he]; exact hr, phaseLe_refl _⟩
  | growClaim s t0 w r0 h0 hp hc =>
    by_cases he : t = t0
    · subst he
      rw [h0] at hr
      injection hr with hr2
      subst hr2
      exact ⟨⟨.growing, r0.seed, w :: r0.claimedVs⟩, setTree_trees_self _ _ _,
        by rw [hp]; exact phaseLe_refl _⟩
    · exact ⟨r, by rw [setTree_trees_other _ _ _ _ he, setClaim_trees]; exact hr,
        phaseLe_refl _⟩
  | growDone s t0 r0 h0 hp =>
    by_cases he : t = t0
    · subst he
      rw [h0] at hr
      injection hr with hr2
      subst hr2
      exact ⟨⟨.inferring, r0.seed, r0.claimedVs⟩, setTree_trees_self _ _ _,
        Or.inr (Or.inr (Or.inl ⟨hp, Or.inl rfl⟩))⟩
    · exact ⟨r, by rw [setTree_trees_other _ _ _ _ he]; exact hr, phaseLe_refl _⟩
  | inferDone s t0 r0 h0 hp =>
    by_cases he : t = t0
    · subst he
      rw [h0] at hr
      injection hr with hr2
      subst hr2
      exact ⟨⟨.sampling, r0.seed, r0.claimedVs⟩, setTree_trees_self _ _ _,
        Or.inr (Or.inr (Or.inr (Or.inl ⟨hp, Or.inl rfl⟩)))⟩
    · exact ⟨r, by rw [setTree_trees_other _ _ _ _ he]; exact hr, phaseLe_refl _⟩
  | commit s t0 r0 a h0 hp =>
    by_cases he : t = t0
    · subst he
      rw [h0] at hr
      injection hr with hr2
      subst hr2
      exact ⟨⟨.committed, r0.seed, r0.claimedVs⟩, commitState_trees_self _ _ _ _,
        Or.inr (Or.inr (Or.inr (Or.inr ⟨hp, rfl⟩)))⟩
    · exact ⟨r, by rw [commitState_trees_other _ _ _ _ _ he]; exact hr, phaseLe_refl _⟩

theorem steps_tree_phase {s s' : SysState} (h : Steps s s') (t : Nat)
    (r : TreeRec) (hr : s.trees t = some r) :
    ∃ r', s'.trees t = some r' ∧ PhaseLe r.phase r'.phase := by
  induction h with
  | refl => exact ⟨r, hr, phaseLe_refl _⟩
  | tail l hs hstep ih =>
    obtain ⟨r1, hr1, hle1⟩ := ih
    obtain ⟨r2, hr2, hle2⟩ := step_tree_phase hstep t r1 hr1
    exact ⟨r2, hr2, phaseLe_trans hle1 hle2⟩

/-- **C7**: over any run, a tree's phase only moves forward along
`Seeded → Growing → Inferring → Sampling → Committed` (no backward
transition), and a tree that ends up discarded was never past `Seeded` - in
particular it never entered `Growing`. -/
theorem C7_lifecycle_forward {s s' : SysState} (h : Steps s s') (t : Nat)
    (r r' : TreeRec) (hr : s.trees t = some r) (hr' : s'.trees t = some r') :
    PhaseLe r.phase r'.phase ∧
    (r'.phase = .discarded → r.phase = .seeded ∨ r.phase = .discarded) := by
  obtain ⟨r2, hr2, hle⟩ := steps_tree_phase h t r hr
  rw [hr'] at hr2
  injection hr2 with h3
  subst h3
  refine ⟨hle, fun hd => ?_⟩
  rw [hd] at hle
  rcases hle with h | h | ⟨h1, h2 | h2 | h2⟩ | ⟨h1, h2 | h2⟩ | ⟨h1, h2⟩
  · exact Or.inr h
  · exact Or.inl h
  all_goals cases h2

/-- Witness for C7: the empty run from the state just after spawning tree 0
keeps the tree's phase at `seeded`, which satisfies the forward order. -/
theorem C7_lifecycle_forward_witness :
    PhaseLe Phase.seeded Phase.seeded ∧
    (Phase.seeded = Phase.discarded →
      Phase.seeded = Phase.seeded ∨ Phase.seeded = Phase.discarded) :=
  C7_lifecycle_forward
    (Steps.refl (setTree (initState (fun _ => 0)) 0 ⟨.seeded, 0, []⟩))
    0 ⟨.seeded, 0, []⟩ ⟨.seeded, 0, []⟩ rfl rfl

end PGibbs

namespace PGibbs

/-- Modelled from the spec: the growth bounds (§4.2, §6) - treesize,
treewidth, and the optional (zero = unlimited) treeheight and factorsize. -/
structure GrowBounds where
  treesize : Nat
  treewidth : Nat
  treeheight : Nat
  factorsize : Nat

/-- Modelled from the spec: a junction tree under construction (§3, §9) -
the claimed vertices, the clique scopes, and one parent index and one depth
per clique (parent-pointer representation; clique 0 is the root). -/
structure JTree where
  claimed : List Nat
  cliques : List (List Nat)
  parentIdx : List Nat
  depth : List Nat

/-- The state-space size of a clique: the product of its variables'
arities. -/
def stateSpace (arity : Nat → Nat) (c : List Nat) : Nat :=
  (c.map arity).prod

/-- Search the existing cliques for one that passes the test, returning its
index. -/
def findParent (pred : List Nat → Bool) : List (List Nat) → Option Nat
  | [] => none
  | c :: cs => if pred c then some 0 else (findParent pred cs).map (· + 1)

/-- Modelled from the spec: the frontier loop of the growth worker (§4.2).
The frontier is processed in order (the min-width priority order is
abstracted as the order of the list).  A frontier vertex already claimed is
dropped and growth continues.  Otherwise the candidate clique is the vertex
together with its already-claimed neighbors; it is admissible when some
existing clique contains all those neighbors (which attaches the new clique
and preserves the running-intersection property), the new clique respects
the treewidth bound, the new depth respects a nonzero treeheight bound, and
the state space respects a nonzero factorsize bound.  Inadmissible
candidates are dropped, never fatal.  Growth halts when the treesize is
reached, the frontier empties, or fuel runs out. -/
def growLoop (nbrs : Nat → List Nat) (arity : Nat → Nat) (b : GrowBounds)
    (othersClaimed : Nat → Bool) : Nat → JTree → List Nat → JTree
  | 0, t, _ => t
  | _ + 1, t, [] => t
  | fuel + 1, t, v :: frontier =>
      if b.treesize ≤ t.claimed.length then t
      else if othersClaimed v then growLoop nbrs arity b othersClaimed fuel t frontier
      else if v ∈ t.claimed then growLoop nbrs arity b othersClaimed fuel t frontier
      else
        let claimedNbrs := t.claimed.filter (fun w => decide (w ∈ nbrs v))
        let newClique := v :: claimedNbrs
        match findParent (fun c => claimedNbrs.all (fun w => decide (w ∈ c))) t.cliques with
        | none => growLoop nbrs arity b othersClaimed fuel t frontier
        | some p =>
            let newDepth := t.depth.getD p 0 + 1
            if newClique.length - 1 ≤ b.treewidth
                ∧ (b.treeheight = 0 ∨ newDepth ≤ b.treeheight)
                ∧ (b.factorsize = 0 ∨ stateSpace arity newClique ≤ b.factorsize) then
              growLoop nbrs arity b othersClaimed fuel
                ⟨t.claimed ++ [v], t.cliques ++ [newClique],
                 t.parentIdx ++ [p], t.depth ++ [newDepth]⟩
                (frontier ++ nbrs v)
            else growLoop nbrs arity b othersClaimed fuel t frontier

/-- Modelled from the spec: `grow(seed, bounds)` (§4.2).  The seed's claim is
acquired with a non-blocking attempt; failure discards the tree (`none`)
before it ever grows.  On success the tree starts as the single seed clique
and the frontier loop runs on the seed's neighbors. -/
def grow (nbrs : Nat → List Nat) (arity : Nat → Nat) (b : GrowBounds)
    (othersClaimed : Nat → Bool) (fuel : Nat) (seed : Nat) : Option JTree :=
  if othersClaimed seed then none
  else some (growLoop nbrs arity b othersClaimed fuel
    ⟨[seed], [[seed]], [0], [0]⟩ (nbrs seed))

/-- Auxiliary: the growth loop never removes a claimed vertex. -/
theorem growLoop_claimed_mono (nbrs : Nat → List Nat) (arity : Nat → Nat)
    (b : GrowBounds) (othersClaimed : Nat → Bool) :
    ∀ (fuel : Nat) (t : JTree) (frontier : List Nat) (w : Nat),
      w ∈ t.claimed →
      w ∈ (growLoop nbrs arity b othersClaimed fuel t frontier).claimed := by
  intro fuel
  induction fuel with
  | zero => intro t frontier w hw; exact hw
  | succ n ih =>
    intro t frontier w hw
    cases frontier with
    | nil => exact hw
    | cons v fr =>
      simp only [growLoop]
      split
      · exact hw
      · split
        · exact ih t fr w hw
        · split
          · exact ih t fr w hw
          · split
            · exact ih t fr w hw
            · split
              · exact ih _ _ w (by simp [hw])
              · exact ih t fr w hw

end PGibbs

namespace PGibbs

/-- **C6**: `grow` never discards a tree that has claimed its seed: whenever
the seed's claim succeeds, `grow` returns a junction tree whose claimed set
contains the seed and is nonempty (possibly the seed alone, when every
frontier candidate is claimed or inadmissible); only a failed seed claim
yields no tree. -/
theorem C6_grow_never_discards (nbrs : Nat → List Nat) (arity : Nat → Nat)
    (b : GrowBounds) (othersClaimed : Nat → Bool) (fuel seed : Nat)
    (h : othersClaimed seed = false) :
    ∃ t, grow nbrs arity b othersClaimed fuel seed = some t ∧
      seed ∈ t.claimed ∧ t.claimed ≠ [] := by
  refine ⟨growLoop nbrs arity b othersClaimed fuel ⟨[seed], [[seed]], [0], [0]⟩
    (nbrs seed), by simp [grow, h], ?_, ?_⟩
  · exact growLoop_claimed_mono nbrs arity b othersClaimed fuel _ _ seed (by simp)
  · intro hnil
    have hmem := growLoop_claimed_mono nbrs arity b othersClaimed fuel
      ⟨[seed], [[seed]], [0], [0]⟩ (nbrs seed) seed (by simp)
    rw [hnil] at hmem
    cases hmem

/-- Witness for C6: seed 0 is free but its only neighbor 1 is claimed by
another tree; `grow` still returns a usable single-vertex tree. -/
theorem C6_grow_never_discards_witness :
    (fun v => decide (v = 1)) 0 = false ∧
    ∃ t, grow (fun _ => [1]) (fun _ => 2) ⟨2, 1, 0, 0⟩ (fun v => decide (v = 1))
        3 0 = some t ∧ (0 : Nat) ∈ t.claimed ∧ t.claimed ≠ [] :=
  ⟨rfl, C6_grow_never_discards (fun _ => [1]) (fun _ => 2) ⟨2, 1, 0, 0⟩
    (fun v => decide (v = 1)) 3 0 rfl⟩

theorem getD_append_lt {α : Type} (l l' : List α) (d : α) (i : Nat)
    (h : i < l.length) : (l ++ l').getD i d = l.getD i d := by
  induction l generalizing i with
  | nil => cases h
  | cons a as ih =>
    cases i with
    | zero => rfl
    | succ n => exact ih n (by simp only [List.length_cons] at h; omega)

theorem getD_snoc_len {α : Type} (l : List α) (a d : α) :
    (l ++ [a]).getD l.length d = a := by
  induction l with
  | nil => rfl
  | cons b bs ih =>
    simp only [List.cons_append, List.length_cons, List.getD_cons_succ]
    exact ih

theorem getD_mem {α : Type} (l : List α) (d : α) (i : Nat) (h : i < l.length) :
    l.getD i d ∈ l := by
  induction l generalizing i with
  | nil => cases h
  | cons a as ih =>
    cases i with
    | zero => exact List.mem_cons_self _ _
    | succ n => exact List.mem_cons_of_mem _ (ih n (by simp only [List.length_cons] at h; omega))

theorem findParent_spec (pred : List Nat → Bool) :
    ∀ (l : List (List Nat)) (p : Nat), findParent pred l = some p →
      p < l.length ∧ pred (l.getD p []) = true := by
  intro l
  induction l with
  | nil => intro p h; cases h
  | cons c cs ih =>
    intro p h
    simp only [findParent] at h
    split at h
    · injection h with h2
      subst h2
      exact ⟨by simp, by assumption⟩
    · cases hf : findParent pred cs with
      | none => rw [hf] at h; cases h
      | some q =>
        rw [hf] at h
        simp only [Option.map_some'] at h
        injection h with h2
        subst h2
        obtain ⟨h3, h4⟩ := ih q hf
        exact ⟨by simp only [List.length_cons]; omega, h4⟩

end PGibbs

namespace PGibbs

/-- The structural and bound invariants the growth loop maintains on the
tree under construction. -/
structure GrowOK (arity : Nat → Nat) (b : GrowBounds) (t : JTree) : Prop where
  len_parent : t.parentIdx.length = t.cliques.length
  len_depth : t.depth.length = t.cliques.length
  cliques_sub : ∀ c ∈ t.cliques, ∀ x ∈ c, x ∈ t.claimed
  parent_lt : ∀ i, 0 < i → i < t.cliques.length → t.parentIdx.getD i 0 < i
  parent_contains : ∀ i, 0 < i → i < t.cliques.length →
      ∀ x, x ∈ t.cliques.getD i [] → (∃ j, j < i ∧ x ∈ t.cliques.getD j []) →
        x ∈ t.cliques.getD (t.parentIdx.getD i 0) []
  size_ok : t.claimed.length ≤ b.treesize
  width_ok : ∀ c ∈ t.cliques, c.length - 1 ≤ b.treewidth
  depth_ok : b.treeheight ≠ 0 → ∀ d ∈ t.depth, d ≤ b.treeheight
  factor_ok : b.factorsize ≠ 0 → ∀ c ∈ t.cliques, stateSpace arity c ≤ b.factorsize

/-- Auxiliary: admitting an admissible candidate preserves the growth
invariants. -/
theorem growOK_extend (arity : Nat → Nat) (b : GrowBounds) (t : JTree)
    (v p : Nat) (cn : List Nat) (hOK : GrowOK arity b t)
    (hsize : ¬ b.treesize ≤ t.claimed.length) (hv : v ∉ t.claimed)
    (hcn : ∀ w ∈ cn, w ∈ t.claimed)
    (hfp : findParent (fun c => cn.all (fun w => decide (w ∈ c))) t.cliques = some p)
    (hwd : (v :: cn).length - 1 ≤ b.treewidth)
    (hht : b.treeheight = 0 ∨ t.depth.getD p 0 + 1 ≤ b.treeheight)
    (hfs : b.factorsize = 0 ∨ stateSpace arity (v :: cn) ≤ b.factorsize) :
    GrowOK arity b ⟨t.claimed ++ [v], t.cliques ++ [v :: cn],
      t.parentIdx ++ [p], t.depth ++ [t.depth.getD p 0 + 1]⟩ := by
  obtain ⟨hp1, hp2⟩ := findParent_spec _ _ _ hfp
  have hpred : ∀ w ∈ cn, w ∈ t.cliques.getD p [] := by
    intro w hw
    have := List.all_eq_true.1 hp2 w hw
    exact of_decide_eq_true this
  refine ⟨?_, ?_, ?_, ?_, ?_, ?_, ?_, ?_, ?_⟩
  · simp [hOK.len_parent]
  · simp [hOK.len_depth]
  · intro c hc x hx
    rcases List.mem_append.1 hc with hc1 | hc1
    · exact List.mem_append_left _ (hOK.cliques_sub c hc1 x hx)
    · rw [List.mem_singleton] at hc1
      subst hc1
      rcases List.mem_cons.1 hx with hx1 | hx1
      · subst hx1
        exact List.mem_append_right _ (List.mem_singleton.2 rfl)
      · exact List.mem_append_left _ (hcn x hx1)
  · intro i h0 hlen
    simp only [List.length_append, List.length_cons, List.length_nil] at hlen
    by_cases hi : i < t.cliques.length
    · have hi2 : i < t.parentIdx.length := by rw [hOK.len_parent]; exact hi
      rw [getD_append_lt _ _ _ _ hi2]
      exact hOK.parent_lt i h0 hi
    · have hieq : i = t.cliques.length := by omega
      subst hieq
      have hgd : (t.parentIdx ++ [p]).getD t.cliques.length 0 = p := by
        rw [← hOK.len_parent]
        exact getD_snoc_len _ _ _
      rw [hgd]
      exact hp1
  · intro i h0 hlen x hx hex
    simp only [List.length_append, List.length_cons, List.length_nil] at hlen
    by_cases hi : i < t.cliques.length
    · rw [getD_append_lt _ _ _ _ hi] at hx
      have hex2 : ∃ j, j < i ∧ x ∈ t.cliques.getD j [] := by
        obtain ⟨j, hj1, hj2⟩ := hex
        rw [getD_append_lt _ _ _ _ (lt_trans hj1 hi)] at hj2
        exact ⟨j, hj1, hj2⟩
      have hi2 : i < t.parentIdx.length := by rw [hOK.len_parent]; exact hi
      rw [getD_append_lt _ _ _ _ hi2]
      rw [getD_append_lt _ _ _ _ (lt_trans (hOK.parent_lt i h0 hi) hi)]
      exact hOK.parent_contains i h0 hi x hx hex2
    · have hieq : i = t.cliques.length := by omega
      subst hieq
      rw [getD_snoc_len] at hx
      have hgd : (t.parentIdx ++ [p]).getD t.cliques.length 0 = p := by
        rw [← hOK.len_parent]
        exact getD_snoc_len _ _ _
      rw [hgd, getD_append_lt _ _ _ _ hp1]
      rcases List.mem_cons.1 hx with hx1 | hx1
      · subst hx1
        obtain ⟨j, hj1, hj2⟩ := hex
        rw [getD_append_lt _ _ _ _ hj1] at hj2
        have hvc := hOK.cliques_sub _ (getD_mem _ _ _ hj1) x hj2
        exact absurd hvc hv
      · exact hpred x hx1
  · simp only [List.length_append, List.length_cons, List.length_nil]
    omega
  · intro c hc
    rcases List.mem_append.1 hc with hc1 | hc1
    · exact hOK.width_ok c hc1
    · rw [List.mem_singleton] at hc1
      subst hc1
      exact hwd
  · intro hne d hd
    rcases List.mem_append.1 hd with hd1 | hd1
    · exact hOK.depth_ok hne d hd1
    · rw [List.mem_singleton] at hd1
      subst hd1
      rcases hht with h | h
      · exact absurd h hne
      · exact h
  · intro hne c hc
    rcases List.mem_append.1 hc with hc1 | hc1
    · exact hOK.factor_ok hne c hc1
    · rw [List.mem_singleton] at hc1
      subst hc1
      rcases hfs with h | h
      · exact absurd h hne
      · exact h

/-- Auxiliary: the growth loop preserves the growth invariants. -/
theorem growLoop_ok (nbrs : Nat → List Nat) (arity : Nat → Nat)
    (b : GrowBounds) (othersClaimed : Nat → Bool) :
    ∀ (fuel : Nat) (t : JTree) (frontier : List Nat),
      GrowOK arity b t →
      GrowOK arity b (growLoop nbrs arity b othersClaimed fuel t frontier) := by
  intro fuel
  induction fuel with
  | zero => intro t frontier h; exact h
  | succ n ih =>
    intro t frontier h
    cases frontier with
    | nil => exact h
    | cons v fr =>
      simp only [growLoop]
      split
      · exact h
      · split
        · exact ih t fr h
        · split
          · exact ih t fr h
          · split
            · exact ih t fr h
            · rename_i p hfp
              split
              · rename_i hadm
                refine ih _ _ ?_
                have hsize : ¬ b.treesize ≤ t.claimed.length := by assumption
                have hvc : ¬ v ∈ t.claimed := by assumption
                exact growOK_extend arity b t v p _ h hsize hvc
                  (fun w hw => (List.mem_filter.1 hw).1) hfp hadm.1 hadm.2.1 hadm.2.2
              · exact ih t fr h

end PGibbs

namespace PGibbs

/-- **C4**: every tree returned by `grow` satisfies the configured bounds:
every clique's width (scope size minus one) is at most the treewidth, the
claimed-vertex count is at most the treesize, every clique depth is at most
a nonzero treeheight, and every clique state-space is at most a nonzero
factorsize.  The seed clique requires the configuration to admit a single
vertex: treesize at least one, and the seed's arity within a nonzero
factorsize. -/
theorem C4_bounds_respected (nbrs : Nat → List Nat) (arity : Nat → Nat)
    (b : GrowBounds) (othersClaimed : Nat → Bool) (fuel seed : Nat)
    (t : JTree) (h1 : 1 ≤ b.treesize)
    (h2 : b.factorsize ≠ 0 → arity seed ≤ b.factorsize)
    (hg : grow nbrs arity b othersClaimed fuel seed = some t) :
    (∀ c ∈ t.cliques, c.length - 1 ≤ b.treewidth) ∧
    t.claimed.length ≤ b.treesize ∧
    (b.treeheight ≠ 0 → ∀ d ∈ t.depth, d ≤ b.treeheight) ∧
    (b.factorsize ≠ 0 → ∀ c ∈ t.cliques, stateSpace arity c ≤ b.factorsize) := by
  have hinit : GrowOK arity b ⟨[seed], [[seed]], [0], [0]⟩ := by
    refine ⟨rfl, rfl, ?_, ?_, ?_, ?_, ?_, ?_, ?_⟩
    · intro c hc x hx
      rw [List.mem_singleton] at hc
      subst hc
      simpa using hx
    · intro i h0 hlen
      simp at hlen
      omega
    · intro i h0 hlen
      simp at hlen
      omega
    · simpa using h1
    · intro c hc
      rw [List.mem_singleton] at hc
      subst hc
      simp
    · intro hne d hd
      rw [List.mem_singleton] at hd
      subst hd
      exact Nat.zero_le _
    · intro hne c hc
      rw [List.mem_singleton] at hc
      subst hc
      simpa [stateSpace] using h2 hne
  unfold grow at hg
  split at hg
  · cases hg
  · injection hg with hg2
    subst hg2
    have hok := growLoop_ok nbrs arity b othersClaimed fuel
      ⟨[seed], [[seed]], [0], [0]⟩ (nbrs seed) hinit
    exact ⟨hok.width_ok, hok.size_ok, hok.depth_ok, hok.factor_ok⟩

/-- Witness for C4: on the concrete one-vertex grow run from seed 0 (its
only neighbor being claimed by another tree), all four bounds hold. -/
theorem C4_bounds_respected_witness :
    (∀ c ∈ (⟨[0], [[0]], [0], [0]⟩ : JTree).cliques, c.length - 1 ≤ 1) ∧
    (⟨[0], [[0]], [0], [0]⟩ : JTree).claimed.length ≤ 2 ∧
    ((0 : Nat) ≠ 0 → ∀ d ∈ (⟨[0], [[0]], [0], [0]⟩ : JTree).depth, d ≤ 0) ∧
    ((0 : Nat) ≠ 0 → ∀ c ∈ (⟨[0], [[0]], [0], [0]⟩ : JTree).cliques,
        stateSpace (fun _ => 2) c ≤ 0) :=
  C4_bounds_respected (fun _ => [1]) (fun _ => 2) ⟨2, 1, 0, 0⟩
    (fun v => decide (v = 1)) 3 0 ⟨[0], [[0]], [0], [0]⟩ (by decide)
    (fun h => absurd rfl h) rfl

end PGibbs

namespace PGibbs

/-- The ancestor chain worker: follow the parent function while it strictly
decreases, spending one unit of fuel per step (the index strictly decreases,
so fuel equal to the start index always suffices). -/
def ancChainF (p : Nat → Nat) : Nat → Nat → List Nat
  | 0, i => [i]
  | fuel + 1, i => if p i < i then i :: ancChainF p fuel (p i) else [i]

/-- The ancestor chain of clique `i` in a parent-pointer tree: `i`, its
parent, its grandparent, and so on while the parent pointer strictly
decreases (as it does for every non-root clique of a well-formed tree). -/
def ancChain (p : Nat → Nat) (i : Nat) : List Nat :=
  ancChainF p i i

theorem ancChainF_congr (p : Nat → Nat) :
    ∀ (fuel1 fuel2 i : Nat), i ≤ fuel1 → i ≤ fuel2 →
      ancChainF p fuel1 i = ancChainF p fuel2 i := by
  intro fuel1
  induction fuel1 with
  | zero =>
    intro fuel2 i h1 h2
    have hi : i = 0 := Nat.le_zero.1 h1
    subst hi
    cases fuel2 with
    | zero => rfl
    | succ m =>
      simp only [ancChainF]
      rw [if_neg (by omega)]
  | succ f1 ih =>
    intro fuel2 i h1 h2
    cases fuel2 with
    | zero =>
      have hi : i = 0 := Nat.le_zero.1 h2
      subst hi
      simp only [ancChainF]
      rw [if_neg (by omega)]
    | succ f2 =>
      simp only [ancChainF]
      by_cases hlt : p i < i
      · rw [if_pos hlt, if_pos hlt]
        rw [ih f2 (p i) (by omega) (by omega)]
      · rw [if_neg hlt, if_neg hlt]

theorem ancChain_of_lt {p : Nat → Nat} {i : Nat} (h : p i < i) :
    ancChain p i = i :: ancChain p (p i) := by
  have hpos : 0 < i := by omega
  obtain ⟨m, rfl⟩ := Nat.exists_eq_succ_of_ne_zero (by omega : i ≠ 0)
  show ancChainF p (m + 1) (m + 1) = (m + 1) :: ancChainF p (p (m + 1)) (p (m + 1))
  simp only [ancChainF]
  rw [if_pos h]
  rw [ancChainF_congr p m (p (m + 1)) (p (m + 1)) (Nat.lt_succ_iff.mp h) (le_refl _)]

theorem ancChain_of_not_lt {p : Nat → Nat} {i : Nat} (h : ¬ p i < i) :
    ancChain p i = [i] := by
  cases i with
  | zero => rfl
  | succ m =>
    show ancChainF p (m + 1) (m + 1) = [m + 1]
    simp only [ancChainF]
    rw [if_neg h]

theorem self_mem_ancChain (p : Nat → Nat) (i : Nat) : i ∈ ancChain p i := by
  by_cases h : p i < i
  · rw [ancChain_of_lt h]
    exact List.mem_cons_self _ _
  · rw [ancChain_of_not_lt h]
    exact List.mem_singleton.2 rfl

theorem mem_ancChain_le (p : Nat → Nat) :
    ∀ (i k : Nat), k ∈ ancChain p i → k ≤ i := by
  intro i
  induction i using Nat.strong_induction_on with
  | _ i ih =>
    intro k hk
    by_cases h : p i < i
    · rw [ancChain_of_lt h] at hk
      rcases List.mem_cons.1 hk with h1 | h1
      · omega
      · have := ih (p i) h k h1
        omega
    · rw [ancChain_of_not_lt h] at hk
      rw [List.mem_singleton] at hk
      omega

theorem ancChain_sorted (p : Nat → Nat) :
    ∀ i : Nat, List.Pairwise (fun a b => b < a) (ancChain p i) := by
  intro i
  induction i using Nat.strong_induction_on with
  | _ i ih =>
    by_cases h : p i < i
    · rw [ancChain_of_lt h]
      refine List.pairwise_cons.2 ⟨?_, ih (p i) h⟩
      intro k hk
      have := mem_ancChain_le p (p i) k hk
      omega
    · rw [ancChain_of_not_lt h]
      simp

/-- The elements of a list up to and including the first occurrence of `a`. -/
def takeUntil (a : Nat) : List Nat → List Nat
  | [] => []
  | h :: t => if h = a then [a] else h :: takeUntil a t

theorem takeUntil_cons_self (a : Nat) (t : List Nat) :
    takeUntil a (a :: t) = [a] := by
  simp [takeUntil]

theorem takeUntil_cons_ne {h a : Nat} (hne : h ≠ a) (t : List Nat) :
    takeUntil a (h :: t) = h :: takeUntil a t := by
  simp [takeUntil, hne]

theorem takeUntil_subset (a : Nat) : ∀ (l : List Nat), takeUntil a l ⊆ l := by
  intro l
  induction l with
  | nil => intro x hx; simp [takeUntil] at hx
  | cons h t ih =>
    by_cases hha : h = a
    · subst hha
      rw [takeUntil_cons_self]
      intro x hx
      rw [List.mem_singleton] at hx
      subst hx
      exact List.mem_cons_self _ _
    · rw [takeUntil_cons_ne hha]
      intro x hx
      rcases List.mem_cons.1 hx with h1 | h1
      · subst h1
        exact List.mem_cons_self _ _
      · exact List.mem_cons_of_mem _ (ih h1)

/-- In a strictly decreasing list, stopping at a smaller element keeps at
least everything collected when stopping at a larger one. -/
theorem takeUntil_mono (a c : Nat) :
    ∀ (l : List Nat), List.Pairwise (fun x y => y < x) l →
      a ∈ l → c ∈ l → c ≤ a → takeUntil a l ⊆ takeUntil c l := by
  intro l
  induction l with
  | nil => intro _ ha; cases ha
  | cons h t ih =>
    intro hsort ha hc hle
    obtain ⟨hhead, htail⟩ := List.pairwise_cons.1 hsort
    by_cases hha : h = a
    · subst hha
      by_cases hhc : h = c
      · subst hhc
        exact fun x hx => hx
      · rw [takeUntil_cons_self, takeUntil_cons_ne hhc]
        intro x hx
        rw [List.mem_singleton] at hx
        subst hx
        exact List.mem_cons_self _ _
    · have hat : a ∈ t := by
        rcases List.mem_cons.1 ha with h1 | h1
        · exact absurd h1.symm hha
        · exact h1
      have hhc : h ≠ c := by
        intro heq
        subst heq
        have := hhead a hat
        omega
      have hct : c ∈ t := by
        rcases List.mem_cons.1 hc with h1 | h1
        · exact absurd h1.symm hhc
        · exact h1
      rw [takeUntil_cons_ne hha, takeUntil_cons_ne hhc]
      intro x hx
      rcases List.mem_cons.1 hx with h1 | h1
      · subst h1
        exact List.mem_cons_self _ _
      · exact List.mem_cons_of_mem _ (ih htail hat hct hle h1)

/-- `find?` on a strictly decreasing list returns an element at least as
large as every later matching element. -/
theorem find_first_ge (q : Nat → Bool) :
    ∀ (l : List Nat), List.Pairwise (fun x y => y < x) l →
      ∀ m, l.find? q = some m → ∀ b ∈ l, q b = true → b ≤ m := by
  intro l
  induction l with
  | nil => intro _ m hm; cases hm
  | cons h t ih =>
    intro hsort m hm b hb hq
    obtain ⟨hhead, htail⟩ := List.pairwise_cons.1 hsort
    by_cases hqh : q h = true
    · rw [List.find?_cons_of_pos _ hqh] at hm
      injection hm with hm2
      subst hm2
      rcases List.mem_cons.1 hb with h1 | h1
      · omega
      · have := hhead b h1
        omega
    · rw [List.find?_cons_of_neg _ (by simpa using hqh)] at hm
      rcases List.mem_cons.1 hb with h1 | h1
      · subst h1
        exact absurd hq hqh
      · exact ih htail m hm b h1 hq

end PGibbs

namespace PGibbs

/-- Auxiliary (clique-connectivity): if the parent-attachment condition
holds, then from any clique containing `x` the ancestor chain stays inside
cliques containing `x` at least until it reaches the least such clique. -/
theorem chain_in_least (n : Nat) (p : Nat → Nat) (C : Nat → List Nat)
    (hp : ∀ i, 0 < i → i < n → p i < i)
    (hpar : ∀ i, 0 < i → i < n → ∀ x, x ∈ C i →
      (∃ j, j < i ∧ x ∈ C j) → x ∈ C (p i))
    (x mS : Nat) (hmS : x ∈ C mS) (hmin : ∀ j, x ∈ C j → mS ≤ j) :
    ∀ i, i < n → x ∈ C i →
      mS ∈ ancChain p i ∧ ∀ k ∈ takeUntil mS (ancChain p i), x ∈ C k := by
  intro i
  induction i using Nat.strong_induction_on with
  | _ i ih =>
    intro hin hxi
    by_cases heq : i = mS
    · subst heq
      constructor
      · exact self_mem_ancChain p i
      · intro k hk
        by_cases hlt : p i < i
        · rw [ancChain_of_lt hlt, takeUntil_cons_self] at hk
          rw [List.mem_singleton] at hk
          subst hk
          exact hxi
        · rw [ancChain_of_not_lt hlt, takeUntil_cons_self] at hk
          rw [List.mem_singleton] at hk
          subst hk
          exact hxi
    · have hms : mS < i := lt_of_le_of_ne (hmin i hxi) (fun h => heq h.symm)
      have hpos : 0 < i := by omega
      have hpi : p i < i := hp i hpos hin
      have hxp : x ∈ C (p i) := hpar i hpos hin x hxi ⟨mS, hms, hmS⟩
      obtain ⟨h1, h2⟩ := ih (p i) hpi (lt_trans hpi hin) hxp
      rw [ancChain_of_lt hpi]
      constructor
      · exact List.mem_cons_of_mem _ h1
      · rw [takeUntil_cons_ne heq]
        intro k hk
        rcases List.mem_cons.1 hk with h3 | h3
        · subst h3
          exact hxi
        · exact h2 k h3

/-- The meeting clique of the two ancestor chains: the first clique on the
chain of `i` that also lies on the chain of `j` (their lowest common
ancestor in a well-formed parent-pointer tree). -/
def meet (p : Nat → Nat) (i j : Nat) : Nat :=
  ((ancChain p i).find? (fun k => decide (k ∈ ancChain p j))).getD 0

/-- The unique path between cliques `i` and `j` in the parent-pointer tree:
up from `i` to the meeting clique, then down to `j`. -/
def ripPath (p : Nat → Nat) (i j : Nat) : List Nat :=
  takeUntil (meet p i j) (ancChain p i)
    ++ (takeUntil (meet p i j) (ancChain p j)).reverse

/-- The running-intersection property for an abstract clique tree given by
parent pointers `p` and clique scopes `C`: built incrementally with each
clique attached below one that contains its overlap with everything earlier,
any variable in two cliques is in every clique on the path between them. -/
theorem wellParented_rip (n : Nat) (p : Nat → Nat) (C : Nat → List Nat)
    (hp : ∀ i, 0 < i → i < n → p i < i)
    (hpar : ∀ i, 0 < i → i < n → ∀ x, x ∈ C i →
      (∃ j, j < i ∧ x ∈ C j) → x ∈ C (p i))
    (x i j : Nat) (hi : i < n) (hj : j < n)
    (hxi : x ∈ C i) (hxj : x ∈ C j) :
    ∀ k ∈ ripPath p i j, x ∈ C k := by
  have hmin_ex : ∃ m, x ∈ C m := ⟨i, hxi⟩
  obtain ⟨mS, hmS, hmin⟩ : ∃ mS, x ∈ C mS ∧ ∀ l, x ∈ C l → mS ≤ l := by
    obtain ⟨m, hm⟩ := hmin_ex
    induction m using Nat.strong_induction_on with
    | _ m ihm =>
      by_cases hall : ∀ l, x ∈ C l → m ≤ l
      · exact ⟨m, hm, hall⟩
      · push_neg at hall
        obtain ⟨l, hl1, hl2⟩ := hall
        exact ihm l hl2 hl1
  obtain ⟨hAi, hA2⟩ := chain_in_least n p C hp hpar x mS hmS hmin i hi hxi
  obtain ⟨hBj, hB2⟩ := chain_in_least n p C hp hpar x mS hmS hmin j hj hxj
  cases hfind : (ancChain p i).find? (fun k => decide (k ∈ ancChain p j)) with
  | none =>
    exfalso
    have := List.find?_eq_none.1 hfind mS hAi
    simp at this
    exact this hBj
  | some m =>
    have hmeet : meet p i j = m := by
      simp [meet, hfind]
    have hmA : m ∈ ancChain p i := List.mem_of_find?_eq_some hfind
    have hmB : m ∈ ancChain p j := by
      have := List.find?_some hfind
      exact of_decide_eq_true this
    have hge : mS ≤ m := by
      refine find_first_ge _ (ancChain p i) (ancChain_sorted p i) m hfind mS hAi ?_
      simp [hBj]
    intro k hk
    rw [ripPath, hmeet] at hk
    rcases List.mem_append.1 hk with h1 | h1
    · exact hA2 k (takeUntil_mono m mS (ancChain p i) (ancChain_sorted p i) hmA hAi hge h1)
    · rw [List.mem_reverse] at h1
      exact hB2 k (takeUntil_mono m mS (ancChain p j) (ancChain_sorted p j) hmB hBj hge h1)

end PGibbs

namespace PGibbs

/-- The assembly invariants of the tree under construction that the
running-intersection property rests on: parent indices point strictly
earlier, every clique draws from the claimed set, and each clique's overlap
with all earlier cliques lies inside its parent clique. -/
structure StructOK (t : JTree) : Prop where
  len_parent : t.parentIdx.length = t.cliques.length
  cliques_sub : ∀ c ∈ t.cliques, ∀ x ∈ c, x ∈ t.claimed
  parent_lt : ∀ i, 0 < i → i < t.cliques.length → t.parentIdx.getD i 0 < i
  parent_contains : ∀ i, 0 < i → i < t.cliques.length →
      ∀ x, x ∈ t.cliques.getD i [] → (∃ j, j < i ∧ x ∈ t.cliques.getD j []) →
        x ∈ t.cliques.getD (t.parentIdx.getD i 0) []

/-- Auxiliary: admitting a candidate attached below a clique containing all
its claimed neighbors preserves the assembly invariants. -/
theorem structOK_extend (t : JTree) (v p nd : Nat) (cn : List Nat)
    (hOK : StructOK t) (hv : v ∉ t.claimed)
    (hcn : ∀ w ∈ cn, w ∈ t.claimed)
    (hfp : findParent (fun c => cn.all (fun w => decide (w ∈ c))) t.cliques = some p) :
    StructOK ⟨t.claimed ++ [v], t.cliques ++ [v :: cn],
      t.parentIdx ++ [p], t.depth ++ [nd]⟩ := by
  obtain ⟨hp1, hp2⟩ := findParent_spec _ _ _ hfp
  have hpred : ∀ w ∈ cn, w ∈ t.cliques.getD p [] := by
    intro w hw
    exact of_decide_eq_true (List.all_eq_true.1 hp2 w hw)
  refine ⟨?_, ?_, ?_, ?_⟩
  · simp [hOK.len_parent]
  · intro c hc x hx
    rcases List.mem_append.1 hc with hc1 | hc1
    · exact List.mem_append_left _ (hOK.cliques_sub c hc1 x hx)
    · rw [List.mem_singleton] at hc1
      subst hc1
      rcases List.mem_cons.1 hx with hx1 | hx1
      · subst hx1
        exact List.mem_append_right _ (List.mem_singleton.2 rfl)
      · exact List.mem_append_left _ (hcn x hx1)
  · intro i h0 hlen
    simp only [List.length_append, List.length_cons, List.length_nil] at hlen
    by_cases hi : i < t.cliques.length
    · have hi2 : i < t.parentIdx.length := by rw [hOK.len_parent]; exact hi
      rw [getD_append_lt _ _ _ _ hi2]
      exact hOK.parent_lt i h0 hi
    · have hieq : i = t.cliques.length := by omega
      subst hieq
      have hgd : (t.parentIdx ++ [p]).getD t.cliques.length 0 = p := by
        rw [← hOK.len_parent]
        exact getD_snoc_len _ _ _
      rw [hgd]
      exact hp1
  · intro i h0 hlen x hx hex
    simp only [List.length_append, List.length_cons, List.length_nil] at hlen
    by_cases hi : i < t.cliques.length
    · rw [getD_append_lt _ _ _ _ hi] at hx
      have hex2 : ∃ j, j < i ∧ x ∈ t.cliques.getD j [] := by
        obtain ⟨j, hj1, hj2⟩ := hex
        rw [getD_append_lt _ _ _ _ (lt_trans hj1 hi)] at hj2
        exact ⟨j, hj1, hj2⟩
      have hi2 : i < t.parentIdx.length := by rw [hOK.len_parent]; exact hi
      rw [getD_append_lt _ _ _ _ hi2]
      rw [getD_append_lt _ _ _ _ (lt_trans (hOK.parent_lt i h0 hi) hi)]
      exact hOK.parent_contains i h0 hi x hx hex2
    · have hieq : i = t.cliques.length := by omega
      subst hieq
      rw [getD_snoc_len] at hx
      have hgd : (t.parentIdx ++ [p]).getD t.cliques.length 0 = p := by
        rw [← hOK.len_parent]
        exact getD_snoc_len _ _ _
      rw [hgd, getD_append_lt _ _ _ _ hp1]
      rcases List.mem_cons.1 hx with hx1 | hx1
      · subst hx1
        obtain ⟨j, hj1, hj2⟩ := hex
        rw [getD_append_lt _ _ _ _ hj1] at hj2
        exact absurd (hOK.cliques_sub _ (getD_mem _ _ _ hj1) x hj2) hv
      · exact hpred x hx1

/-- Auxiliary: the growth loop preserves the assembly invariants. -/
theorem growLoop_structOK (nbrs : Nat → List Nat) (arity : Nat → Nat)
    (b : GrowBounds) (othersClaimed : Nat → Bool) :
    ∀ (fuel : Nat) (t : JTree) (frontier : List Nat),
      StructOK t →
      StructOK (growLoop nbrs arity b othersClaimed fuel t frontier) := by
  intro fuel
  induction fuel with
  | zero => intro t frontier h; exact h
  | succ n ih =>
    intro t frontier h
    cases frontier with
    | nil => exact h
    | cons v fr =>
      simp only [growLoop]
      split
      · exact h
      · split
        · exact ih t fr h
        · split
          · exact ih t fr h
          · split
            · exact ih t fr h
            · rename_i p hfp
              split
              · refine ih _ _ ?_
                have hvc : ¬ v ∈ t.claimed := by assumption
                exact structOK_extend t v p _ _ h hvc
                  (fun w hw => (List.mem_filter.1 hw).1) hfp
              · exact ih t fr h

/-- **C3**: every tree returned by `grow` satisfies the running-intersection
property: a variable contained in two cliques is contained in every clique
on the unique parent-pointer path connecting them. -/
theorem C3_running_intersection (nbrs : Nat → List Nat) (arity : Nat → Nat)
    (b : GrowBounds) (othersClaimed : Nat → Bool) (fuel seed : Nat)
    (t : JTree) (hg : grow nbrs arity b othersClaimed fuel seed = some t)
    (x i j : Nat) (hi : i < t.cliques.length) (hj : j < t.cliques.length)
    (hxi : x ∈ t.cliques.getD i []) (hxj : x ∈ t.cliques.getD j []) :
    ∀ k ∈ ripPath (fun a => t.parentIdx.getD a 0) i j, x ∈ t.cliques.getD k [] := by
  have hinit : StructOK ⟨[seed], [[seed]], [0], [0]⟩ := by
    refine ⟨rfl, ?_, ?_, ?_⟩
    · intro c hc y hy
      rw [List.mem_singleton] at hc
      subst hc
      simpa using hy
    · intro i2 h0 hlen
      simp at hlen
      omega
    · intro i2 h0 hlen
      simp at hlen
      omega
  unfold grow at hg
  split at hg
  · cases hg
  · injection hg with hg2
    subst hg2
    have hok := growLoop_structOK nbrs arity b othersClaimed fuel
      ⟨[seed], [[seed]], [0], [0]⟩ (nbrs seed) hinit
    exact wellParented_rip _ _ _ hok.parent_lt hok.parent_contains x i j hi hj hxi hxj

/-- Witness for C3: the concrete single-clique tree grown from seed 0; the
path from clique 0 to itself stays inside the clique containing variable 0. -/
theorem C3_running_intersection_witness :
    (0 : Nat) ∈ (⟨[0], [[0]], [0], [0]⟩ : JTree).cliques.getD 0 [] ∧
    (0 : Nat) ∈ ([[0]] : List (List Nat)).getD 0 [] :=
  ⟨by decide,
    C3_running_intersection (fun _ => [1]) (fun _ => 2) ⟨2, 1, 0, 0⟩
      (fun v => decide (v = 1)) 3 0 ⟨[0], [[0]], [0], [0]⟩ rfl 0 0 0
      (by decide) (by decide) (by decide) (by decide) 0 (by decide)⟩

end PGibbs
